import Mathlib

/-!
Verification development for the finite-difference gradient subsystem
(`pennylane/gradients/finite_difference.py`) and the batched VJP combinator
(`pennylane/interfaces/batch/unwrap.py`).

Scalars are modelled as exact rationals (`ℚ`): the specification stipulates
that the Vandermonde linear system is solved exactly, so `np.float64`
arithmetic is idealised as exact arithmetic throughout.

`np.linalg.solve` on the Vandermonde system is embedded as `solveVand`,
an executable exact solver whose defining formula is the Lagrange-basis
closed form of the unique solution; the theorem `solveVand_exact` proves
that it does solve the system `A · c = b` (with `A[i][j] = shift[j] ^ i`
and `b` zero except `b[n] = n!`), which is the defining property of the
value `np.linalg.solve` returns on a nonsingular system.
-/

/-! ### Computable dense polynomials over ℚ

A polynomial is a list of coefficients, least degree first.  These are the
executable carriers for the Vandermonde solve; `toPoly` bridges them to
Mathlib's `Polynomial ℚ` for the correctness proofs. -/

/-- Coefficient-wise sum of two dense polynomials. -/
def pAdd : List ℚ → List ℚ → List ℚ
  | [], q => q
  | p, [] => p
  | c :: p, d :: q => (c + d) :: pAdd p q

/-- Multiplication of a dense polynomial by the linear factor `X - a`. -/
def pMulLin (a : ℚ) (p : List ℚ) : List ℚ :=
  pAdd (0 :: p) (p.map (fun c => -a * c))

/-- Horner evaluation of a dense polynomial at `x`. -/
def pEval (x : ℚ) (p : List ℚ) : ℚ :=
  p.foldr (fun c acc => c + x * acc) 0

/-- The `k`-th coefficient of a dense polynomial. -/
def pCoeff (k : ℕ) (p : List ℚ) : ℚ :=
  p.getD k 0

/-- `∏ a ∈ l, (X - a)` as a dense polynomial. -/
def prodLin (l : List ℚ) : List ℚ :=
  l.foldr pMulLin [1]

/-- Bridge from dense polynomials to Mathlib polynomials (proof-side only). -/
noncomputable def toPoly : List ℚ → Polynomial ℚ
  | [] => 0
  | c :: p => Polynomial.C c + toPoly p * Polynomial.X

@[simp] theorem toPoly_nil : toPoly [] = 0 := rfl

@[simp] theorem toPoly_cons (c : ℚ) (p : List ℚ) :
    toPoly (c :: p) = Polynomial.C c + toPoly p * Polynomial.X := rfl

theorem toPoly_pAdd (p q : List ℚ) : toPoly (pAdd p q) = toPoly p + toPoly q := by
  induction p generalizing q with
  | nil => simp [pAdd, toPoly]
  | cons c p ih =>
    cases q with
    | nil => simp [pAdd, toPoly]
    | cons d q => simp [pAdd, toPoly, ih]; ring

theorem toPoly_map_mul (c : ℚ) (p : List ℚ) :
    toPoly (p.map (fun x => c * x)) = Polynomial.C c * toPoly p := by
  induction p with
  | nil => simp [toPoly]
  | cons d p ih => simp [toPoly, ih]; ring

theorem toPoly_pMulLin (a : ℚ) (p : List ℚ) :
    toPoly (pMulLin a p) = (Polynomial.X - Polynomial.C a) * toPoly p := by
  simp only [pMulLin, toPoly_pAdd, toPoly_cons, toPoly_map_mul]
  simp [Polynomial.C_neg]
  ring

theorem toPoly_prodLin (l : List ℚ) :
    toPoly (prodLin l) = (l.map (fun a => Polynomial.X - Polynomial.C a)).prod := by
  induction l with
  | nil => simp [prodLin, toPoly]
  | cons a l ih =>
    simp only [prodLin, List.foldr_cons, List.map_cons, List.prod_cons]
    rw [toPoly_pMulLin, show List.foldr pMulLin [1] l = prodLin l from rfl, ih]

theorem pEval_toPoly (x : ℚ) (p : List ℚ) : (toPoly p).eval x = pEval x p := by
  induction p with
  | nil => simp [toPoly, pEval]
  | cons c p ih => simp [toPoly, pEval, ih]; ring

theorem pCoeff_toPoly (k : ℕ) (p : List ℚ) : (toPoly p).coeff k = pCoeff k p := by
  induction p generalizing k with
  | nil => simp [toPoly, pCoeff]
  | cons c p ih =>
    cases k with
    | zero => simp [toPoly, pCoeff, Polynomial.coeff_mul_X_zero]
    | succ k =>
      simp [toPoly, pCoeff, Polynomial.coeff_mul_X, ih k, Polynomial.coeff_C]

theorem pEval_prodLin (x : ℚ) (l : List ℚ) :
    pEval x (prodLin l) = (l.map (fun a => x - a)).prod := by
  induction l with
  | nil => simp [prodLin, pEval]
  | cons a l ih =>
    rw [← pEval_toPoly] at ih ⊢
    simp only [prodLin, List.foldr_cons, toPoly_pMulLin, Polynomial.eval_mul]
    rw [show (l.foldr pMulLin [1]) = prodLin l from rfl, ih]
    simp

theorem natDegree_toPoly_prodLin (l : List ℚ) :
    (toPoly (prodLin l)).natDegree ≤ l.length := by
  induction l with
  | nil => simp [prodLin, toPoly]
  | cons a l ih =>
    simp only [prodLin, List.foldr_cons, toPoly_pMulLin]
    calc ((Polynomial.X - Polynomial.C a) * toPoly (prodLin l)).natDegree
        ≤ (Polynomial.X - Polynomial.C a).natDegree + (toPoly (prodLin l)).natDegree :=
          Polynomial.natDegree_mul_le
      _ ≤ 1 + l.length := by
          exact Nat.add_le_add (le_of_eq (Polynomial.natDegree_X_sub_C a)) ih
      _ = (a :: l).length := by simp [Nat.add_comm]

/-! ### The exact Vandermonde solve and the stencil pipeline

Source: `pennylane/gradients/finite_difference.py`, `finite_diff_stencil`.
-/

/-- Embedding of `np.linalg.solve(A, b)` for the stencil's Vandermonde system
`A[i][j] = shifts[j] ^ i`, `b = 0` except `b[n] = n!`: the `j`-th entry of the
exact solution, in Lagrange closed form.  `solveVand_exact` below proves that
this list solves the system, and `solveVand_unique` that it is the only
solution, which characterises `np.linalg.solve`'s return value on the
(nonsingular) Vandermonde matrix. -/
def solveVand (s : List ℚ) (n : ℕ) : List ℚ :=
  (List.range s.length).map (fun j =>
    (n.factorial : ℚ) * pCoeff n (prodLin (s.eraseIdx j)) /
      pEval (s.getD j 0) (prodLin (s.eraseIdx j)))

/-- `np.stack([coeffs, shifts])`: the stencil as a list of
(coefficient, shift) columns. -/
def rawStencil (s : List ℚ) (n : ℕ) : List (ℚ × ℚ) :=
  (solveVand s n).zip s

/-- The `ValueError`s raised by `finite_diff_stencil`. -/
inductive FDError where
  | invalidN
  | invalidOrder
  | oddOrderCenter
  | unknownForm
deriving DecidableEq

/-- `np.arange(N)` as rationals. -/
def forwardShifts (N : ℕ) : List ℚ :=
  (List.range N).map (fun i : ℕ => (i : ℚ))

/-- `np.arange(-N + 1, 1)` as rationals. -/
def backwardShifts (N : ℕ) : List ℚ :=
  (List.range N).map (fun i : ℕ => (i : ℚ) + 1 - N)

/-- `np.arange(-M, M + 1)` as rationals. -/
def centerShifts (M : ℕ) : List ℚ :=
  (List.range (2 * M + 1)).map (fun i : ℕ => (i : ℚ) - M)

/-- `finite_diff_stencil` up to (and including) the linear solve and
`np.stack`, before the coefficient-truncation / column-drop / sort
post-processing.  Arguments are integers; the source's dynamic-typing check
`isinstance(n, int)` is not representable, all embedded inputs being integral.
All intermediate quantities (`num_points`, `N`) are nonnegative integers, so
Python's float floor-division semantics coincide with `ℕ` division. -/
def finite_diff_stencil_raw (n order : ℤ) (form : String) :
    Except FDError (List (ℚ × ℚ)) :=
  if n < 1 then .error .invalidN
  else if order < 1 then .error .invalidOrder
  else
    let nn : ℕ := n.toNat
    let num_points : ℕ := order.toNat + 2 * ((nn + 1) / 2) - 1
    let N : ℕ := if nn % 2 = 0 then num_points + 1 else num_points
    if form = "forward" then .ok (rawStencil (forwardShifts N) nn)
    else if form = "backward" then .ok (rawStencil (backwardShifts N) nn)
    else if form = "center" then
      if order % 2 ≠ 0 then .error .oddOrderCenter
      else .ok (rawStencil (centerShifts (num_points / 2)) nn)
    else .error .unknownForm

/-- The truncation threshold `1e-10`. -/
def eps : ℚ := 1 / 10000000000

/-- Insert a stencil column into a list sorted by ascending absolute shift,
keeping insertion stable (ties keep the earlier column first). -/
def insertAbs (p : ℚ × ℚ) : List (ℚ × ℚ) → List (ℚ × ℚ)
  | [] => [p]
  | q :: t => if |p.2| ≤ |q.2| then p :: q :: t else q :: insertAbs p t

/-- Stable sort of stencil columns by ascending absolute shift, embedding
`stencil[:, np.argsort(np.abs(stencil)[1])]` (`argsort` on these small inputs
is numpy's insertion sort, which preserves the order of tied shifts, matching
the source's doctest outputs). -/
def sortAbs : List (ℚ × ℚ) → List (ℚ × ℚ)
  | [] => []
  | p :: t => insertAbs p (sortAbs t)

/-- The stencil post-processing:
`stencil[0, np.abs(stencil[0, :]) < 1e-10] = 0` (zero small coefficients),
`stencil = stencil[:, ~np.all(stencil == 0, axis=0)]` (drop all-zero columns),
`stencil = stencil[:, np.argsort(np.abs(stencil)[1])]` (sort by `|shift|`). -/
def stencilPost (st : List (ℚ × ℚ)) : List (ℚ × ℚ) :=
  sortAbs ((st.map (fun p => (if |p.1| < eps then 0 else p.1, p.2))).filter
    (fun p => decide (¬(p.1 = 0 ∧ p.2 = 0))))

/-- `finite_diff_stencil(n, order, form)` from the source: validation, shift
construction, exact Vandermonde solve, post-processing. -/
def finite_diff_stencil (n order : ℤ) (form : String) :
    Except FDError (List (ℚ × ℚ)) :=
  (finite_diff_stencil_raw n order form).map stencilPost

/-- `Σ coefficient[i] * shift[i] ^ k` over a stencil. -/
def vsum (st : List (ℚ × ℚ)) (k : ℕ) : ℚ :=
  (st.map (fun p => p.1 * p.2 ^ k)).sum

/-- The Vandermonde exactness property of a stencil for the `n`-th
derivative: the moment sums reproduce `n!` at exponent `n` and vanish at
every other exponent below the stencil length. -/
def stencilExact (st : List (ℚ × ℚ)) (n : ℕ) : Prop :=
  vsum st n = (n.factorial : ℚ) ∧ ∀ k, k < st.length → k ≠ n → vsum st k = 0

instance (st : List (ℚ × ℚ)) (n : ℕ) : Decidable (stencilExact st n) :=
  inferInstanceAs
    (Decidable (vsum st n = (n.factorial : ℚ) ∧ ∀ k, k < st.length → k ≠ n → vsum st k = 0))

/-- Satisfaction of a predicate by the payload of a successful `Except`
computation; an error never satisfies it. -/
def exceptSat {ε α : Type} (e : Except ε α) (P : α → Prop) : Prop :=
  match e with
  | .ok a => P a
  | .error _ => False

instance {ε α : Type} (e : Except ε α) (P : α → Prop) [DecidablePred P] :
    Decidable (exceptSat e P) :=
  match e with
  | .ok a => inferInstanceAs (Decidable (P a))
  | .error _ => inferInstanceAs (Decidable False)

/-! ### Correctness of the exact Vandermonde solve -/

theorem get_mem_eraseIdx :
    ∀ (l : List ℚ) (j i : ℕ) (h : i < l.length), i ≠ j → l.get ⟨i, h⟩ ∈ l.eraseIdx j := by
  intro l
  induction l with
  | nil => intro j i h _; exact absurd h (Nat.not_lt_zero i)
  | cons a t ih =>
    intro j i h hij
    cases j with
    | zero =>
      cases i with
      | zero => exact absurd rfl hij
      | succ i => simp [List.eraseIdx]
    | succ j =>
      cases i with
      | zero => simp [List.eraseIdx]
      | succ i =>
        have hi : i < t.length := Nat.lt_of_succ_lt_succ h
        have := ih j i hi (fun e => hij (by omega))
        simpa [List.eraseIdx] using Or.inr this

theorem mem_eraseIdx_imp :
    ∀ (l : List ℚ) (j : ℕ) (a : ℚ), a ∈ l.eraseIdx j →
      ∃ i, ∃ h : i < l.length, i ≠ j ∧ l.get ⟨i, h⟩ = a := by
  intro l
  induction l with
  | nil => intro j a ha; simp [List.eraseIdx] at ha
  | cons b t ih =>
    intro j a ha
    cases j with
    | zero =>
      simp only [List.eraseIdx] at ha
      obtain ⟨⟨i, hi⟩, hg⟩ := List.mem_iff_get.1 ha
      exact ⟨i + 1, Nat.succ_lt_succ hi, by omega, by simpa using hg⟩
    | succ j =>
      simp only [List.eraseIdx] at ha
      rcases List.mem_cons.1 ha with ha | ha
      · exact ⟨0, Nat.succ_pos _, by omega, ha.symm⟩
      · obtain ⟨i, hi, hij, hg⟩ := ih j a ha
        exact ⟨i + 1, Nat.succ_lt_succ hi, by omega, by simpa using hg⟩

theorem vsum_rawStencil (s : List ℚ) (n k : ℕ) :
    vsum (rawStencil s n) k =
      ∑ j : Fin s.length,
        ((n.factorial : ℚ) * pCoeff n (prodLin (s.eraseIdx (j : ℕ))) /
            pEval (s.get j) (prodLin (s.eraseIdx (j : ℕ)))) * s.get j ^ k := by
  have hlist : (rawStencil s n).map (fun p => p.1 * p.2 ^ k) =
      List.ofFn (fun j : Fin s.length =>
        ((n.factorial : ℚ) * pCoeff n (prodLin (s.eraseIdx (j : ℕ))) /
            pEval (s.get j) (prodLin (s.eraseIdx (j : ℕ)))) * s.get j ^ k) := by
    apply List.ext_getElem
    · simp [rawStencil, solveVand]
    · intro i h₁ h₂
      have hi : i < s.length := by simpa [rawStencil, solveVand] using h₁
      simp [rawStencil, solveVand, List.getElem_zip, List.getElem_ofFn,
        List.getD_eq_getElem?_getD, List.getElem?_eq_getElem hi, List.get_eq_getElem]
  rw [vsum, hlist, List.sum_ofFn]

theorem solveVand_exact (s : List ℚ) (hs : s.Nodup) (n : ℕ) (hn : n < s.length) :
    ∀ k, k < s.length → vsum (rawStencil s n) k = if k = n then (n.factorial : ℚ) else 0 := by
  intro k hk
  have hv : Function.Injective (fun i : Fin s.length => s.get i) :=
    List.nodup_iff_injective_get.1 hs
  set N := s.length with hN
  set v : Fin N → ℚ := fun i => s.get i with hvdef
  set P : Fin N → Polynomial ℚ := fun j => toPoly (prodLin (s.eraseIdx (j : ℕ))) with hP
  set d : Fin N → ℚ := fun j => pEval (v j) (prodLin (s.eraseIdx (j : ℕ))) with hd
  have hdne : ∀ j, d j ≠ 0 := by
    intro j
    rw [hd]
    simp only [pEval_prodLin]
    rw [Ne, List.prod_eq_zero_iff]
    intro hmem
    obtain ⟨a, ha, hza⟩ := List.mem_map.1 hmem
    obtain ⟨i, hi, hij, hg⟩ := mem_eraseIdx_imp s j a ha
    have hvj : s.get ⟨i, hi⟩ = v j := by rw [hg]; exact (sub_eq_zero.1 hza).symm
    have : (⟨i, hi⟩ : Fin N) = j := hv hvj
    exact hij (by simpa using congrArg Fin.val this)
  have hPd : ∀ j, (P j).eval (v j) = d j := by
    intro j; rw [hP, hd]; exact pEval_toPoly _ _
  have hPz : ∀ i j : Fin N, i ≠ j → (P j).eval (v i) = 0 := by
    intro i j hij
    rw [hP, pEval_toPoly, pEval_prodLin]
    apply List.prod_eq_zero_iff.2
    refine List.mem_map.2 ⟨v i, ?_, sub_self _⟩
    exact get_mem_eraseIdx s j i i.isLt (fun e => hij (Fin.ext e))
  have hdeg : ∀ j, (P j).natDegree ≤ N - 1 := by
    intro j
    rw [hP]
    refine le_trans (natDegree_toPoly_prodLin _) ?_
    rw [List.length_eraseIdx_of_lt j.isLt]
  set E : Polynomial ℚ :=
    (∑ j : Fin N, Polynomial.C (v j ^ k * (d j)⁻¹) * P j) - Polynomial.X ^ k with hE
  have hEdeg : E.natDegree < N := by
    have hA : (∑ j : Fin N, Polynomial.C (v j ^ k * (d j)⁻¹) * P j).natDegree ≤ N - 1 := by
      refine Polynomial.natDegree_sum_le_of_forall_le _ _ ?_
      intro j _
      exact le_trans (Polynomial.natDegree_C_mul_le _ _) (hdeg j)
    have hB : (Polynomial.X ^ k : Polynomial ℚ).natDegree ≤ N - 1 := by
      rw [Polynomial.natDegree_X_pow]; omega
    have h1 : E.natDegree ≤ N - 1 :=
      le_trans (Polynomial.natDegree_sub_le _ _) (max_le hA hB)
    omega
  have hEeval : ∀ i : Fin N, E.eval (v i) = 0 := by
    intro i
    rw [hE]
    simp only [Polynomial.eval_sub, Polynomial.eval_finset_sum, Polynomial.eval_mul,
      Polynomial.eval_C, Polynomial.eval_pow, Polynomial.eval_X]
    have hsum : (∑ j : Fin N, v j ^ k * (d j)⁻¹ * (P j).eval (v i)) = v i ^ k := by
      rw [Finset.sum_eq_single i]
      · rw [hPd i, mul_assoc, inv_mul_cancel₀ (hdne i), mul_one]
      · intro j _ hji
        rw [hPz i j (fun e => hji e.symm), mul_zero]
      · intro h; exact absurd (Finset.mem_univ i) h
    rw [hsum, sub_self]
  have hE0 : E = 0 := by
    refine Polynomial.eq_zero_of_natDegree_lt_card_of_eval_eq_zero E hv ?_ ?_
    · exact hEeval
    · exact lt_of_lt_of_le hEdeg (le_of_eq (Fintype.card_fin N).symm)
  have hsumX : (∑ j : Fin N, Polynomial.C (v j ^ k * (d j)⁻¹) * P j) =
      Polynomial.X ^ k := by
    have h0 : (∑ j : Fin N, Polynomial.C (v j ^ k * (d j)⁻¹) * P j) -
        Polynomial.X ^ k = 0 := hE0
    exact sub_eq_zero.1 h0
  have hco := congrArg (fun p : Polynomial ℚ => p.coeff n) hsumX
  simp only [Polynomial.finset_sum_coeff, Polynomial.coeff_C_mul,
    Polynomial.coeff_X_pow] at hco
  rw [vsum_rawStencil]
  have hterm : ∀ j : Fin N,
      ((n.factorial : ℚ) * pCoeff n (prodLin (s.eraseIdx (j : ℕ))) /
          pEval (s.get j) (prodLin (s.eraseIdx (j : ℕ)))) * s.get j ^ k =
        (n.factorial : ℚ) * (v j ^ k * (d j)⁻¹ * (P j).coeff n) := by
    intro j
    rw [hP, pCoeff_toPoly]
    have hpe : pEval (s.get j) (prodLin (s.eraseIdx (j : ℕ))) = d j := rfl
    rw [hpe]
    simp only [hvdef, List.get_eq_getElem]
    field_simp
    ring
  calc (∑ j : Fin N,
        ((n.factorial : ℚ) * pCoeff n (prodLin (s.eraseIdx (j : ℕ))) /
            pEval (s.get j) (prodLin (s.eraseIdx (j : ℕ)))) * s.get j ^ k)
      = ∑ j : Fin N, (n.factorial : ℚ) * (v j ^ k * (d j)⁻¹ * (P j).coeff n) := by
        exact Finset.sum_congr rfl (fun j _ => hterm j)
    _ = (n.factorial : ℚ) * ∑ j : Fin N, v j ^ k * (d j)⁻¹ * (P j).coeff n := by
        rw [Finset.mul_sum]
    _ = (n.factorial : ℚ) * (if n = k then 1 else 0) := by rw [hco]
    _ = if k = n then (n.factorial : ℚ) else 0 := by
        by_cases h : k = n
        · subst h; simp
        · rw [if_neg (fun e => h e.symm), if_neg h, mul_zero]

/-! ### Properties of the stencil post-processing -/

theorem map_id_of_mem {α : Type} (l : List α) (f : α → α) (h : ∀ x ∈ l, f x = x) :
    l.map f = l := by
  induction l with
  | nil => rfl
  | cons a t ih =>
    simp only [List.map_cons, h a (List.mem_cons_self a t)]
    rw [ih (fun x hx => h x (List.mem_cons_of_mem a hx))]


theorem vsum_cons (p : ℚ × ℚ) (t : List (ℚ × ℚ)) (k : ℕ) :
    vsum (p :: t) k = p.1 * p.2 ^ k + vsum t k := by
  simp [vsum]

theorem insertAbs_perm (p : ℚ × ℚ) (l : List (ℚ × ℚ)) :
    List.Perm (insertAbs p l) (p :: l) := by
  induction l with
  | nil => exact List.Perm.refl _
  | cons q t ih =>
    rw [insertAbs]
    split
    · exact List.Perm.refl _
    · exact List.Perm.trans (List.Perm.cons q ih) (List.Perm.swap p q t)

theorem sortAbs_perm (l : List (ℚ × ℚ)) : List.Perm (sortAbs l) l := by
  induction l with
  | nil => exact List.Perm.refl _
  | cons p t ih =>
    exact List.Perm.trans (insertAbs_perm p (sortAbs t)) (List.Perm.cons p ih)

theorem mem_insertAbs {x p : ℚ × ℚ} {l : List (ℚ × ℚ)} :
    x ∈ insertAbs p l ↔ x = p ∨ x ∈ l := by
  rw [List.Perm.mem_iff (insertAbs_perm p l), List.mem_cons]

theorem insertAbs_sorted (p : ℚ × ℚ) (l : List (ℚ × ℚ))
    (h : l.Pairwise (fun a b => |a.2| ≤ |b.2|)) :
    (insertAbs p l).Pairwise (fun a b => |a.2| ≤ |b.2|) := by
  induction l with
  | nil => simp [insertAbs]
  | cons q t ih =>
    rw [insertAbs]
    rcases List.pairwise_cons.1 h with ⟨hq, ht⟩
    split
    · rename_i hpq
      refine List.pairwise_cons.2 ⟨?_, h⟩
      intro x hx
      rcases List.mem_cons.1 hx with rfl | hx
      · exact hpq
      · exact le_trans hpq (hq x hx)
    · rename_i hpq
      push_neg at hpq
      refine List.pairwise_cons.2 ⟨?_, ih ht⟩
      intro x hx
      rcases mem_insertAbs.1 hx with rfl | hx
      · exact le_of_lt hpq
      · exact hq x hx

theorem sortAbs_sorted (l : List (ℚ × ℚ)) :
    (sortAbs l).Pairwise (fun a b => |a.2| ≤ |b.2|) := by
  induction l with
  | nil => simp [sortAbs]
  | cons p t ih => exact insertAbs_sorted p (sortAbs t) ih

theorem vsum_perm {l₁ l₂ : List (ℚ × ℚ)} (h : List.Perm l₁ l₂) (k : ℕ) :
    vsum l₁ k = vsum l₂ k :=
  List.Perm.sum_eq (List.Perm.map _ h)

theorem vsum_filter_drop_zero (l : List (ℚ × ℚ)) (k : ℕ) :
    vsum (l.filter (fun p => decide (¬(p.1 = 0 ∧ p.2 = 0)))) k = vsum l k := by
  induction l with
  | nil => rfl
  | cons p t ih =>
    rw [List.filter_cons]
    by_cases hp : p.1 = 0 ∧ p.2 = 0
    · have hb : (decide (¬(p.1 = 0 ∧ p.2 = 0))) = false := by
        simp only [decide_eq_false_iff_not, not_not]
        exact hp
      rw [hb]
      simp only [Bool.false_eq_true, if_false]
      rw [ih, vsum_cons, hp.1, zero_mul, zero_add]
    · have hb : (decide (¬(p.1 = 0 ∧ p.2 = 0))) = true := by
        simp only [decide_eq_true_eq]
        exact hp
      rw [hb]
      simp only [if_true]
      rw [vsum_cons, vsum_cons, ih]

theorem stencilPost_map_eq (st : List (ℚ × ℚ)) (h : ∀ p ∈ st, p.1 = 0 ∨ eps ≤ |p.1|) :
    st.map (fun p => (if |p.1| < eps then 0 else p.1, p.2)) = st := by
  apply map_id_of_mem
  intro p hp
  rcases h p hp with h0 | hbig
  · rcases p with ⟨c, s⟩
    simp only at h0
    subst h0
    simp
  · have hlt : ¬ |p.1| < eps := not_lt.2 hbig
    simp [hlt]

theorem vsum_stencilPost (st : List (ℚ × ℚ)) (h : ∀ p ∈ st, p.1 = 0 ∨ eps ≤ |p.1|) (k : ℕ) :
    vsum (stencilPost st) k = vsum st k := by
  rw [stencilPost, vsum_perm (sortAbs_perm _) k, stencilPost_map_eq st h,
    vsum_filter_drop_zero]

theorem length_stencilPost_le (st : List (ℚ × ℚ)) : (stencilPost st).length ≤ st.length := by
  rw [stencilPost, List.Perm.length_eq (sortAbs_perm _)]
  refine le_trans (List.length_filter_le _ _) ?_
  rw [List.length_map]

/-! ### Shape of the shift lists produced by each form -/

theorem forwardShifts_length (N : ℕ) : (forwardShifts N).length = N := by
  simp [forwardShifts]

theorem backwardShifts_length (N : ℕ) : (backwardShifts N).length = N := by
  simp [backwardShifts]

theorem centerShifts_length (M : ℕ) : (centerShifts M).length = 2 * M + 1 := by
  simp [centerShifts]

theorem forwardShifts_nodup (N : ℕ) : (forwardShifts N).Nodup := by
  refine List.Nodup.map ?_ (List.nodup_range N)
  intro a b hab
  have : (a : ℚ) = b := hab
  exact_mod_cast this

theorem backwardShifts_nodup (N : ℕ) : (backwardShifts N).Nodup := by
  refine List.Nodup.map ?_ (List.nodup_range N)
  intro a b hab
  have : (a : ℚ) = b := by
    have := hab
    simp only at this
    linarith
  exact_mod_cast this

theorem centerShifts_nodup (M : ℕ) : (centerShifts M).Nodup := by
  refine List.Nodup.map ?_ (List.nodup_range (2 * M + 1))
  intro a b hab
  have : (a : ℚ) = b := by
    have := hab
    simp only at this
    linarith
  exact_mod_cast this

theorem length_solveVand (s : List ℚ) (n : ℕ) : (solveVand s n).length = s.length := by
  simp [solveVand]

theorem length_rawStencil (s : List ℚ) (n : ℕ) : (rawStencil s n).length = s.length := by
  simp [rawStencil, length_solveVand]

/-- Every successful run of the validation-plus-solve stage returns the raw
stencil of a duplicate-free shift list longer than the derivative order. -/
theorem finite_diff_stencil_raw_ok_shape (n order : ℤ) (form : String)
    (st : List (ℚ × ℚ)) (h : finite_diff_stencil_raw n order form = .ok st) :
    ∃ s : List ℚ, st = rawStencil s n.toNat ∧ s.Nodup ∧ n.toNat < s.length := by
  by_cases h1 : n < 1
  · simp [finite_diff_stencil_raw, h1] at h
  by_cases h2 : order < 1
  · simp [finite_diff_stencil_raw, h1, h2] at h
  by_cases hff : form = "forward"
  · simp only [finite_diff_stencil_raw, if_neg h1, if_neg h2, if_pos hff,
      Except.ok.injEq] at h
    refine ⟨_, h.symm, forwardShifts_nodup _, ?_⟩
    rw [forwardShifts_length]
    by_cases hpar : n.toNat % 2 = 0
    · rw [if_pos hpar]; omega
    · rw [if_neg hpar]; omega
  by_cases hfb : form = "backward"
  · simp only [finite_diff_stencil_raw, if_neg h1, if_neg h2, if_neg hff, if_pos hfb,
      Except.ok.injEq] at h
    refine ⟨_, h.symm, backwardShifts_nodup _, ?_⟩
    rw [backwardShifts_length]
    by_cases hpar : n.toNat % 2 = 0
    · rw [if_pos hpar]; omega
    · rw [if_neg hpar]; omega
  by_cases hfc : form = "center"
  · by_cases hodd : order % 2 ≠ 0
    · simp [finite_diff_stencil_raw, if_neg h1, if_neg h2, if_neg hff, if_neg hfb,
        if_pos hfc, hodd] at h
    · simp only [finite_diff_stencil_raw, if_neg h1, if_neg h2, if_neg hff, if_neg hfb,
        if_pos hfc, if_neg hodd, Except.ok.injEq] at h
      refine ⟨_, h.symm, centerShifts_nodup _, ?_⟩
      rw [centerShifts_length]
      omega
  · simp [finite_diff_stencil_raw, h1, h2, hff, hfb, hfc] at h

/-! ### Structural facts about post-processed stencils -/

theorem stencilPost_coeff_mem (st : List (ℚ × ℚ)) :
    ∀ p ∈ stencilPost st, p.1 = 0 ∨ eps ≤ |p.1| := by
  intro p hp
  rw [stencilPost, List.Perm.mem_iff (sortAbs_perm _)] at hp
  obtain ⟨q, _, hq⟩ := List.mem_map.1 (List.mem_of_mem_filter hp)
  by_cases hsmall : |q.1| < eps
  · left
    rw [if_pos hsmall] at hq
    rw [← hq]
  · right
    rw [if_neg hsmall] at hq
    rw [← hq]
    exact not_lt.1 hsmall

theorem stencilPost_no_zero_col (st : List (ℚ × ℚ)) :
    ∀ p ∈ stencilPost st, ¬(p.1 = 0 ∧ p.2 = 0) := by
  intro p hp
  rw [stencilPost, List.Perm.mem_iff (sortAbs_perm _)] at hp
  have hf := List.of_mem_filter hp
  rw [decide_eq_true_eq] at hf
  exact hf

theorem stencilPost_sorted (st : List (ℚ × ℚ)) :
    (stencilPost st).Pairwise (fun a b => |a.2| ≤ |b.2|) :=
  sortAbs_sorted _

theorem zero_shift_head (l : List (ℚ × ℚ))
    (hp : l.Pairwise (fun a b => |a.2| ≤ |b.2|))
    (h0 : (0 : ℚ) ∈ l.map Prod.snd) : (l.map Prod.snd).head? = some 0 := by
  cases l with
  | nil => simp at h0
  | cons a t =>
    simp only [List.map_cons, List.head?_cons, Option.some.injEq]
    rcases List.mem_cons.1 h0 with ha | hmem
    · exact ha.symm
    · obtain ⟨q, hq, hq0⟩ := List.mem_map.1 hmem
      have hle : |a.2| ≤ |q.2| := (List.pairwise_cons.1 hp).1 q hq
      rw [hq0] at hle
      simpa using le_antisymm (by simpa using hle) (abs_nonneg a.2)

/-- Whether an `Except` computation raised. -/
def isError {ε α : Type} : Except ε α → Bool
  | .error _ => true
  | .ok _ => false

instance {ε α : Type} [DecidableEq ε] [DecidableEq α] : DecidableEq (Except ε α) :=
  fun a b =>
    match a, b with
    | .ok x, .ok y =>
      if h : x = y then isTrue (by rw [h]) else isFalse (fun hc => h (Except.ok.inj hc))
    | .ok x, .error f => isFalse (fun hc => Except.noConfusion hc)
    | .error e, .ok y => isFalse (fun hc => Except.noConfusion hc)
    | .error e, .error f =>
      if h : e = f then isTrue (by rw [h]) else isFalse (fun hc => h (Except.error.inj hc))

/-! ### Claim theorems for the stencil generator -/

/-- **C1** (amended): for every valid `(n, order, form)`, *provided every
solved coefficient is either exactly zero or has magnitude at least `1e-10`*
(so that the truncation step only zeroes exact zeros), the stencil returned by
`finite_diff_stencil` satisfies the Vandermonde exactness equations:
`Σ coefficientᵢ · shiftᵢ ^ n = n!`, and `Σ coefficientᵢ · shiftᵢ ^ k = 0` for
every `k < len(shifts)`, `k ≠ n`. -/
theorem finite_diff_stencil_exact (n order : ℤ) (form : String)
    (straw : List (ℚ × ℚ))
    (hok : finite_diff_stencil_raw n order form = .ok straw)
    (hcoeff : ∀ p ∈ straw, p.1 = 0 ∨ eps ≤ |p.1|) :
    finite_diff_stencil n order form = .ok (stencilPost straw) ∧
      stencilExact (stencilPost straw) n.toNat := by
  obtain ⟨s, hst, hnd, hlen⟩ := finite_diff_stencil_raw_ok_shape n order form straw hok
  subst hst
  refine ⟨by rw [finite_diff_stencil, hok]; rfl, ?_, ?_⟩
  · rw [vsum_stencilPost _ hcoeff, solveVand_exact s hnd n.toNat hlen n.toNat hlen,
      if_pos rfl]
  · intro k hk hkn
    have hk' : k < s.length :=
      lt_of_lt_of_le hk
        (le_trans (length_stencilPost_le _) (le_of_eq (length_rawStencil s n.toNat)))
    rw [vsum_stencilPost _ hcoeff, solveVand_exact s hnd n.toNat hlen k hk', if_neg hkn]

/-- Witness for **C1**: at `(n, order, form) = (2, 2, "center")` the raw
coefficients are `[1, -2, 1]` (none below the threshold), and the returned
stencil `[(-2, 0), (1, -1), (1, 1)]` is exact. -/
theorem finite_diff_stencil_exact_witness :
    finite_diff_stencil 2 2 "center" = .ok (stencilPost (rawStencil (centerShifts 1) 2)) ∧
      stencilExact (stencilPost (rawStencil (centerShifts 1) 2)) (Int.toNat 2) :=
  finite_diff_stencil_exact 2 2 "center" (rawStencil (centerShifts 1) 2)
    (by decide!) (by decide!)

/-- **C1** counterexample: `n = 1, order = 34, form = "center"` is a valid
input, yet the returned stencil violates exactness: the exact coefficients at
shifts `±17` equal `∓ 1/(17 · C(34,17))` ≈ `∓2.52e-11`, whose magnitude is
below `1e-10`, so the truncation zeroes them and the moment sums are off by
`≈ 8.6e-10`; in particular `Σ cᵢ·sᵢ¹ = 1166803109/1166803110 ≠ 1!`. -/
theorem finite_diff_stencil_exact_cex :
    exceptSat (finite_diff_stencil 1 34 "center") (fun st => ¬ stencilExact st 1) := by
  decide!

/-- **C4** (amended): every stencil returned by `finite_diff_stencil` has each
coefficient either exactly zero or of magnitude at least `1e-10` (entries below
the threshold are *zeroed*, and dropped only when their shift is also zero); it
retains no all-zero column; its columns are sorted by ascending absolute shift;
and if a zero shift is present it occupies index 0. -/
theorem finite_diff_stencil_wf (n order : ℤ) (form : String) (st : List (ℚ × ℚ))
    (hok : finite_diff_stencil n order form = .ok st) :
    (∀ p ∈ st, p.1 = 0 ∨ eps ≤ |p.1|) ∧
      (∀ p ∈ st, ¬(p.1 = 0 ∧ p.2 = 0)) ∧
      (st.map Prod.snd).Pairwise (fun a b => |a| ≤ |b|) ∧
      ((0 : ℚ) ∈ st.map Prod.snd → (st.map Prod.snd).head? = some 0) := by
  rw [finite_diff_stencil] at hok
  cases hraw : finite_diff_stencil_raw n order form with
  | error e =>
    rw [hraw] at hok
    exact absurd hok (by simp [Except.map])
  | ok straw =>
    rw [hraw] at hok
    have hst : stencilPost straw = st := Except.ok.inj hok
    subst hst
    refine ⟨stencilPost_coeff_mem straw, stencilPost_no_zero_col straw, ?_, ?_⟩
    · rw [List.pairwise_map]
      exact stencilPost_sorted straw
    · exact zero_shift_head _ (stencilPost_sorted straw)

/-- Witness for **C4** at `(1, 1, "forward")`, whose stencil is
`[(-1, 0), (1, 1)]`. -/
theorem finite_diff_stencil_wf_witness :
    (∀ p ∈ [((-1 : ℚ), (0 : ℚ)), (1, 1)], p.1 = 0 ∨ eps ≤ |p.1|) ∧
      (∀ p ∈ [((-1 : ℚ), (0 : ℚ)), (1, 1)], ¬(p.1 = 0 ∧ p.2 = 0)) ∧
      ([((-1 : ℚ), (0 : ℚ)), (1, 1)].map Prod.snd).Pairwise (fun a b => |a| ≤ |b|) ∧
      ((0 : ℚ) ∈ [((-1 : ℚ), (0 : ℚ)), (1, 1)].map Prod.snd →
        ([((-1 : ℚ), (0 : ℚ)), (1, 1)].map Prod.snd).head? = some 0) :=
  finite_diff_stencil_wf 1 1 "forward" [(-1, 0), (1, 1)] (by decide!)

/-- **C4** counterexample: at `(1, 34, "center")` the returned stencil retains
the columns at shifts `±17` with coefficient zeroed, i.e. it *does* contain
entries whose coefficient magnitude is below `1e-10` (they are not dropped,
because only columns whose shift is also zero are dropped). -/
theorem finite_diff_stencil_wf_cex :
    exceptSat (finite_diff_stencil 1 34 "center")
      (fun st => ¬ ∀ p ∈ st, ¬ |p.1| < eps) := by
  decide!

/-- **C5**: `finite_diff_stencil` fails exactly when the configuration is
invalid: `n < 1`, or `order < 1`, or `form` is none of
forward/backward/center, or `form = "center"` with `order` odd; on all other
(integral) inputs it returns a stencil.  The error is raised by the stencil
generator itself, before any program is built (`finite_diff` constructs tapes
only after this call returns).  The source's non-integer check
`isinstance(n, int)` has no counterpart here, the embedded inputs being
integers. -/
theorem finite_diff_stencil_error_iff (n order : ℤ) (form : String) :
    isError (finite_diff_stencil n order form) = true ↔
      n < 1 ∨ order < 1 ∨
        (form ≠ "forward" ∧ form ≠ "backward" ∧ form ≠ "center") ∨
        (form = "center" ∧ order % 2 ≠ 0) := by
  rw [finite_diff_stencil]
  by_cases h1 : n < 1
  · simp [finite_diff_stencil_raw, h1, isError, Except.map]
  by_cases h2 : order < 1
  · simp [finite_diff_stencil_raw, h1, h2, isError, Except.map]
  by_cases hff : form = "forward"
  · subst hff
    simp [finite_diff_stencil_raw, h1, h2, isError, Except.map]
  by_cases hfb : form = "backward"
  · subst hfb
    simp [finite_diff_stencil_raw, h1, h2, isError, Except.map]
  by_cases hfc : form = "center"
  · subst hfc
    by_cases hodd : order % 2 ≠ 0
    · simp [finite_diff_stencil_raw, h1, h2, hodd, isError, Except.map]
    · simp [finite_diff_stencil_raw, h1, h2, hodd, isError, Except.map]
  · simp [finite_diff_stencil_raw, h1, h2, hff, hfb, hfc, isError, Except.map]

/-- **C9**: the three documented reference stencils, with columns written as
(coefficient, shift) pairs: `(1,1,forward) ↦ coeffs [-1,1], shifts [0,1]`;
`(1,2,center) ↦ coeffs [-1/2,1/2], shifts [-1,1]`;
`(2,2,center) ↦ coeffs [-2,1,1], shifts [0,-1,1]`. -/
theorem finite_diff_stencil_reference_values :
    finite_diff_stencil 1 1 "forward" = .ok [(-1, 0), (1, 1)] ∧
      finite_diff_stencil 1 2 "center" = .ok [(-1/2, -1), (1/2, 1)] ∧
      finite_diff_stencil 2 2 "center" = .ok [(-2, 0), (1, -1), (1, 1)] :=
  ⟨by decide!, by decide!, by decide!⟩

/-! ### Vectors, matrices, and the tape model

Source: `pennylane/gradients/finite_difference.py` (`generate_shifted_tapes`,
`finite_diff`).  The tape abstraction itself is an external collaborator of
this subsystem; its operations are modelled from the spec. -/

/-- `np.zeros([d])` as a list. -/
def zeroVec (d : ℕ) : List ℚ :=
  List.replicate d 0

/-- Elementwise sum of two equal-length vectors. -/
def vecAdd (a b : List ℚ) : List ℚ :=
  List.zipWith (fun x y => x + y) a b

/-- Scalar multiple of a vector. -/
def vecScale (c : ℚ) (v : List ℚ) : List ℚ :=
  v.map (fun x => c * x)

/-- `np.zeros([r, c])`. -/
def zeroMat (r c : ℕ) : List (List ℚ) :=
  List.replicate r (zeroVec c)

/-- `qml.math.T` on a stacked list of `d`-vectors: the transpose, with the
output dimension `d` made explicit (numpy reads it off the array shape). -/
def transposeM (d : ℕ) (rows : List (List ℚ)) : List (List ℚ) :=
  (List.range d).map (fun i => rows.map (fun r => r.getD i 0))

/-- Modelled from the spec: the differentiable program (quantum tape), an
external collaborator.  It holds an ordered parameter sequence, the subset of
parameter positions marked trainable, a per-trainable-parameter
differentiation-method classification (the result of
`tape._grad_method_validation("numeric")`), a declared output dimensionality,
and an operation structure (opaque here). -/
structure QTape where
  params : List ℚ
  trainable : List ℕ
  diffMethods : List String
  outputDim : ℕ
  ops : List String
deriving DecidableEq

/-- Modelled from the spec: `tape.get_parameters()` (trainable only, the
source's default) — the values at the trainable positions, in order. -/
def QTape.getParameters (t : QTape) : List ℚ :=
  t.trainable.map (fun i => t.params.getD i 0)

/-- Write the values `vs` into positions `tr` of `ps`, in order. -/
def setParams (ps : List ℚ) : List ℕ → List ℚ → List ℚ
  | [], _ => ps
  | _, [] => ps
  | i :: tr, v :: vs => setParams (ps.set i v) tr vs

/-- Modelled from the spec: `tape.set_parameters(vs)` (trainable only, the
source's default) — writes `vs` positionally into the trainable slots of a
copy of the tape. -/
def QTape.setParameters (t : QTape) (vs : List ℚ) : QTape :=
  { t with params := setParams t.params t.trainable vs }

/-- `generate_shifted_tapes(tape, idx, shifts)` from the source: one copied
tape per shift value, whose trainable-parameter vector is the base vector plus
a one-hot shift vector (`shift = np.zeros(...); shift[idx] = s`). -/
def generate_shifted_tapes (tape : QTape) (idx : ℕ) (shifts : List ℚ) : List QTape :=
  let params := tape.getParameters
  shifts.map (fun s =>
    tape.setParameters (vecAdd params ((zeroVec params.length).set idx s)))

/-- Modelled from the spec: `tape._choose_params_with_methods(diff_methods,
argnum)` — pairs each trainable-parameter position with its classification,
keeping only positions in `argnum` when given. -/
def chooseParams (tape : QTape) (argnum : Option (List ℕ)) : List (ℕ × String) :=
  let all := (List.range tape.trainable.length).zip tape.diffMethods
  match argnum with
  | none => all
  | some l => all.filter (fun p => decide (p.1 ∈ l))

/-- The driver's split of the stencil into the optional zero-shift coefficient
`c0` and the remaining coefficient/shift columns: `if 0 in shifts: c0 =
coeffs[0]; shifts = shifts[1:]; coeffs = coeffs[1:]`. -/
def fdStencilSplit (st : List (ℚ × ℚ)) : Option ℚ × List ℚ × List ℚ :=
  let coeffs := st.map Prod.fst
  let shifts := st.map Prod.snd
  if (0 : ℚ) ∈ shifts then (some (coeffs.getD 0 0), coeffs.drop 1, shifts.drop 1)
  else (none, coeffs, shifts)

/-- The driver's per-parameter shape table: `0` for a parameter whose method
is `"0"`, else the length of its shifted-tape sub-batch. -/
def fdShapes (tape : QTape) (argnum : Option (List ℕ)) (shifts : List ℚ) (h : ℚ) :
    List ℕ :=
  (chooseParams tape argnum).map (fun p =>
    if p.2 = "0" then 0
    else (generate_shifted_tapes tape p.1 (shifts.map (fun x => x * h))).length)

/-- The driver's submitted batch: the unshifted tape first when a zero-shift
column was extracted, then each selected parameter's shifted sub-batch in
parameter order. -/
def fdGradientTapes (tape : QTape) (argnum : Option (List ℕ)) (c0 : Option ℚ)
    (shifts : List ℚ) (h : ℚ) : List QTape :=
  (if c0.isSome then [tape] else []) ++
    (chooseParams tape argnum).flatMap (fun p =>
      if p.2 = "0" then []
      else generate_shifted_tapes tape p.1 (shifts.map (fun x => x * h)))

/-- `sum([c * r for c, r in zip(coeffs, res)])`: the coefficient-weighted sum
of a chunk of result vectors (for well-shaped `d`-vector results). -/
def weightedSum (d : ℕ) (coeffs : List ℚ) (chunk : List (List ℚ)) : List ℚ :=
  ((coeffs.zip chunk).map (fun cr => vecScale cr.1 cr.2)).foldr vecAdd (zeroVec d)

/-- One enabled parameter's gradient vector: the weighted sum of its `s`
consecutive results starting at `start`, plus `c0 · results[0]` when a
zero-shift term exists, divided by `h^n`. -/
def fdGradTerm (d : ℕ) (hpow : ℚ) (c0 : Option ℚ) (coeffs : List ℚ)
    (results : List (List ℚ)) (start s : ℕ) : List ℚ :=
  vecScale (1 / hpow)
    (match c0 with
      | some c =>
        vecAdd (weightedSum d coeffs ((results.drop start).take s))
          (vecScale c (results.getD 0 []))
      | none => weightedSum d coeffs ((results.drop start).take s))

/-- The cursor loop of `processing_fn`: for each shape-table entry, emit a
zero vector (entry 0) or slice the next `s` results, weight them, add the
`c0` term, and divide by `h^n`. -/
def fdProcessGo (d : ℕ) (results : List (List ℚ)) (c0 : Option ℚ) (coeffs : List ℚ)
    (hpow : ℚ) : List ℕ → ℕ → List (List ℚ)
  | [], _ => []
  | s :: rest, start =>
    if s = 0 then zeroVec d :: fdProcessGo d results c0 coeffs hpow rest start
    else
      fdGradTerm d hpow c0 coeffs results start s ::
        fdProcessGo d results c0 coeffs hpow rest (start + s)

/-- `processing_fn(results)` from the source: run the cursor loop (cursor
starting at 1 when the unshifted tape was prepended) and transpose the
stacked per-parameter gradients.  The source's trailing `dtype == object`
compatibility loop (for ragged per-measurement shapes) is the identity on the
well-shaped rectangular results modelled here and is omitted. -/
def fdProcess (d : ℕ) (h : ℚ) (n : ℕ) (c0 : Option ℚ) (coeffs : List ℚ)
    (shapes : List ℕ) (results : List (List ℚ)) : List (List ℚ) :=
  transposeM d
    (fdProcessGo d results c0 coeffs (h ^ n) shapes (if c0.isSome then 1 else 0))

/-- `finite_diff(tape, argnum, h, order, n, form)` from the source. -/
def finite_diff (tape : QTape) (argnum : Option (List ℕ)) (h : ℚ) (order n : ℤ)
    (form : String) :
    Except FDError (List QTape × (List (List ℚ) → List (List ℚ))) :=
  if tape.trainable = [] ∨ tape.diffMethods.all (fun m => m == "0") then
    .ok ([], fun _ => zeroMat tape.outputDim tape.trainable.length)
  else
    match finite_diff_stencil n order form with
    | .error e => .error e
    | .ok st =>
      .ok (fdGradientTapes tape argnum (fdStencilSplit st).1 (fdStencilSplit st).2.2 h,
        fdProcess tape.outputDim h n.toNat (fdStencilSplit st).1
          (fdStencilSplit st).2.1 (fdShapes tape argnum (fdStencilSplit st).2.2 h))

/-! ### The shifted-tape builder (claim C6) -/

theorem set_getD_self (l : List ℚ) (i : ℕ) (h : i < l.length) :
    l.set i (l.getD i 0) = l := by
  apply List.ext_getElem (by simp)
  intro p hp1 hp2
  rw [List.getElem_set]
  split
  · rename_i hip
    subst hip
    rw [List.getD_eq_getElem?_getD, List.getElem?_eq_getElem h]
    rfl
  · rfl

theorem getD_set_ne (l : List ℚ) (i j : ℕ) (v : ℚ) (h : i ≠ j) :
    (l.set i v).getD j 0 = l.getD j 0 := by
  rw [List.getD_eq_getElem?_getD, List.getD_eq_getElem?_getD, List.getElem?_set_ne h]

theorem getD_map_read (ps : List ℚ) (tr : List ℕ) (j : ℕ) (hj : j < tr.length) :
    (tr.map (fun i => ps.getD i 0)).getD j 0 = ps.getD (tr.getD j 0) 0 := by
  rw [List.getD_eq_getElem?_getD, List.getElem?_map,
    List.getElem?_eq_getElem hj, List.getD_eq_getElem?_getD tr,
    List.getElem?_eq_getElem hj]
  rfl

theorem vecAdd_onehot (v : List ℚ) (idx : ℕ) (hidx : idx < v.length) (s : ℚ) :
    vecAdd v ((zeroVec v.length).set idx s) = v.set idx (v.getD idx 0 + s) := by
  apply List.ext_getElem
  · simp [vecAdd, zeroVec]
  · intro p hp1 hp2
    have hpv : p < v.length := by simpa [vecAdd, zeroVec] using hp1
    simp only [vecAdd, zeroVec] at hp1 ⊢
    rw [List.getElem_zipWith, List.getElem_set]
    rw [List.getElem_set]
    split
    · rename_i hip
      subst hip
      rw [List.getD_eq_getElem?_getD, List.getElem?_eq_getElem hpv]
      rfl
    · rw [List.getElem_replicate, add_zero]

theorem setParams_id (ps : List ℚ) : ∀ (tr : List ℕ) (q : List ℚ),
    (∀ i ∈ tr, i < q.length ∧ q.getD i 0 = ps.getD i 0) →
    setParams q tr (tr.map (fun i => ps.getD i 0)) = q := by
  intro tr
  induction tr with
  | nil => intro q _; rfl
  | cons i tr ih =>
    intro q h
    simp only [List.map_cons, setParams]
    have hi := h i (List.mem_cons_self i tr)
    have hq : q.set i (ps.getD i 0) = q := by
      rw [← hi.2]
      exact set_getD_self q i hi.1
    rw [hq]
    exact ih q (fun i' hi' => h i' (List.mem_cons_of_mem i hi'))

theorem setParams_shift : ∀ (tr : List ℕ) (ps : List ℚ), tr.Nodup →
    (∀ i ∈ tr, i < ps.length) → ∀ idx, idx < tr.length → ∀ w,
    setParams ps tr ((tr.map (fun i => ps.getD i 0)).set idx w) =
      ps.set (tr.getD idx 0) w := by
  intro tr
  induction tr with
  | nil => intro ps _ _ idx hidx; exact absurd hidx (by simp)
  | cons i tr ih =>
    intro ps hnd hlt idx hidx w
    cases idx with
    | zero =>
      simp only [List.map_cons, List.set_cons_zero, setParams, List.getD_cons_zero]
      apply setParams_id
      intro i' hi'
      have hne : i ≠ i' := by
        intro e
        subst e
        exact (List.nodup_cons.1 hnd).1 hi'
      refine ⟨?_, getD_set_ne ps i i' w hne⟩
      rw [List.length_set]
      exact hlt i' (List.mem_cons_of_mem i hi')
    | succ j =>
      simp only [List.map_cons, List.set_cons_succ, setParams, List.getD_cons_succ]
      rw [set_getD_self ps i (hlt i (List.mem_cons_self i tr))]
      exact ih ps (List.nodup_cons.1 hnd).2
        (fun i' hi' => hlt i' (List.mem_cons_of_mem i hi'))
        j (Nat.lt_of_succ_lt_succ hidx) w

/-- **C6**: for every base tape (with well-formed trainable metadata), valid
trainable-parameter index, and shift list of length `k`,
`generate_shifted_tapes` returns exactly `k` tapes; the `i`-th returned tape
equals the base tape with only the targeted parameter replaced by its old
value plus the `i`-th shift (record equality: every other parameter and all
other fields — operations, trainable set, methods, output dimension — are
unchanged).  The base tape itself is a value in this embedding, so it is
never mutated; the source guarantees this by copying
(`tape.copy(copy_operations=True)`) before `set_parameters`. -/
theorem generate_shifted_tapes_spec (tape : QTape) (idx : ℕ) (shifts : List ℚ)
    (hnd : tape.trainable.Nodup)
    (hrange : ∀ i ∈ tape.trainable, i < tape.params.length)
    (hidx : idx < tape.trainable.length) :
    (generate_shifted_tapes tape idx shifts).length = shifts.length ∧
      ∀ i, i < shifts.length →
        (generate_shifted_tapes tape idx shifts).getD i tape =
          { tape with
              params := tape.params.set (tape.trainable.getD idx 0)
                (tape.params.getD (tape.trainable.getD idx 0) 0 + shifts.getD i 0) } := by
  constructor
  · simp [generate_shifted_tapes]
  · intro i hi
    have hmap : (generate_shifted_tapes tape idx shifts).getD i tape =
        tape.setParameters (vecAdd tape.getParameters
          ((zeroVec tape.getParameters.length).set idx (shifts.getD i 0))) := by
      rw [generate_shifted_tapes]
      rw [List.getD_eq_getElem?_getD, List.getElem?_map, List.getElem?_eq_getElem hi]
      rw [List.getD_eq_getElem?_getD shifts, List.getElem?_eq_getElem hi]
      rfl
    rw [hmap]
    have hlen : tape.getParameters.length = tape.trainable.length := by
      simp [QTape.getParameters]
    have hone : vecAdd tape.getParameters
        ((zeroVec tape.getParameters.length).set idx (shifts.getD i 0)) =
        (tape.trainable.map (fun i' => tape.params.getD i' 0)).set idx
          (tape.params.getD (tape.trainable.getD idx 0) 0 + shifts.getD i 0) := by
      rw [vecAdd_onehot _ idx (by rw [hlen]; exact hidx)]
      rw [QTape.getParameters]
      rw [getD_map_read tape.params tape.trainable idx hidx]
    rw [QTape.setParameters, hone,
      setParams_shift tape.trainable tape.params hnd hrange idx hidx]

/-- A concrete two-parameter tape used by several witnesses. -/
def wTape : QTape :=
  { params := [5, 7], trainable := [0, 1], diffMethods := ["F", "F"],
    outputDim := 1, ops := ["RX", "RY"] }

/-- Witness for **C6**: shifting trainable parameter 1 of `wTape` by `1/2`. -/
theorem generate_shifted_tapes_spec_witness :
    (generate_shifted_tapes wTape 1 [1/2]).length = [(1 : ℚ)/2].length ∧
      ∀ i, i < [(1 : ℚ)/2].length →
        (generate_shifted_tapes wTape 1 [1/2]).getD i wTape =
          { wTape with
              params := wTape.params.set (wTape.trainable.getD 1 0)
                (wTape.params.getD (wTape.trainable.getD 1 0) 0 +
                  [(1 : ℚ)/2].getD i 0) } :=
  generate_shifted_tapes_spec wTape 1 [1/2] (by decide) (by decide) (by decide)

/-! ### The post-processing function (claims C2, C7) -/

/-- The claim-side description of the `j`-th per-parameter gradient: a zero
vector when the shape-table entry is zero; otherwise the chunk of `shape`
consecutive results starting at cursor position
`base + Σ shapes[0..j)` (the cursor is the prefix sum of consumed shapes),
weighted by the coefficients, plus `c0 · results[0]` when a zero-shift term
exists, divided by `h^n`. -/
def fdSpecGrad (d : ℕ) (hpow : ℚ) (c0 : Option ℚ) (coeffs : List ℚ)
    (results : List (List ℚ)) (shapes : List ℕ) (base : ℕ) (j : ℕ) : List ℚ :=
  if shapes.getD j 0 = 0 then zeroVec d
  else
    fdGradTerm d hpow c0 coeffs results (base + (shapes.take j).sum) (shapes.getD j 0)

theorem fdSpecGrad_succ (d : ℕ) (hpow : ℚ) (c0 : Option ℚ) (coeffs : List ℚ)
    (results : List (List ℚ)) (s : ℕ) (rest : List ℕ) (base j : ℕ) :
    fdSpecGrad d hpow c0 coeffs results (s :: rest) base (j + 1) =
      fdSpecGrad d hpow c0 coeffs results rest (base + s) j := by
  simp only [fdSpecGrad, List.getD_cons_succ, List.take_succ_cons, List.sum_cons,
    Nat.add_assoc]

/-- The source's running-cursor fold equals the claim's closed-form
prefix-sum indexing. -/
theorem fdProcessGo_eq_spec (d : ℕ) (results : List (List ℚ)) (c0 : Option ℚ)
    (coeffs : List ℚ) (hpow : ℚ) :
    ∀ (shapes : List ℕ) (base : ℕ),
      fdProcessGo d results c0 coeffs hpow shapes base =
        (List.range shapes.length).map
          (fdSpecGrad d hpow c0 coeffs results shapes base) := by
  intro shapes
  induction shapes with
  | nil => intro base; rfl
  | cons s rest ih =>
    intro base
    rw [List.length_cons, List.range_succ_eq_map, List.map_cons, List.map_map]
    have htail : (List.range rest.length).map
        ((fdSpecGrad d hpow c0 coeffs results (s :: rest) base) ∘ Nat.succ) =
        (List.range rest.length).map
          (fdSpecGrad d hpow c0 coeffs results rest (base + s)) := by
      apply List.map_congr_left
      intro j _
      exact fdSpecGrad_succ d hpow c0 coeffs results s rest base j
    have hhead0 : s = 0 →
        fdSpecGrad d hpow c0 coeffs results (s :: rest) base 0 = zeroVec d := by
      intro hs
      simp only [fdSpecGrad, List.getD_cons_zero, if_pos hs]
    have hheadn : s ≠ 0 →
        fdSpecGrad d hpow c0 coeffs results (s :: rest) base 0 =
          fdGradTerm d hpow c0 coeffs results base s := by
      intro hs
      simp only [fdSpecGrad, List.getD_cons_zero, if_neg hs, List.take_zero,
        List.sum_nil, Nat.add_zero]
    by_cases hs : s = 0
    · subst hs
      have hgo : fdProcessGo d results c0 coeffs hpow (0 :: rest) base =
          zeroVec d :: fdProcessGo d results c0 coeffs hpow rest base := by
        simp [fdProcessGo]
      rw [hgo, ih base, htail, hhead0 rfl, Nat.add_zero]
    · simp only [fdProcessGo, if_neg hs]
      rw [ih (base + s), htail, hheadn hs]

theorem length_fdProcessGo (d : ℕ) (results : List (List ℚ)) (c0 : Option ℚ)
    (coeffs : List ℚ) (hpow : ℚ) (shapes : List ℕ) (base : ℕ) :
    (fdProcessGo d results c0 coeffs hpow shapes base).length = shapes.length := by
  rw [fdProcessGo_eq_spec]
  simp

theorem length_transposeM (d : ℕ) (rows : List (List ℚ)) :
    (transposeM d rows).length = d := by
  simp [transposeM]

theorem mem_transposeM_length (d : ℕ) (rows : List (List ℚ)) :
    ∀ r ∈ transposeM d rows, r.length = rows.length := by
  intro r hr
  rw [transposeM] at hr
  obtain ⟨i, _, rfl⟩ := List.mem_map.1 hr
  simp

/-- **C2**: for every tape with at least one numerically differentiable
trainable parameter and every valid configuration, `finite_diff` (with
`argnum = None`) returns the driver batch together with the post-processing
function `fdProcess`; applied to *any* result sequence, that function equals
the transpose of the stacked per-parameter gradient vectors described by the
claim (cursor starting at 1 iff a zero-shift tape was prepended, zero vector
for a zero shape-table entry, otherwise the weighted chunk plus the `c0`
term, divided by `h^n`), and the resulting matrix has `output_dim` rows of
`num_trainable_params` entries each. -/
theorem finite_diff_post (tape : QTape) (h : ℚ) (order n : ℤ) (form : String)
    (st : List (ℚ × ℚ))
    (hnz : ¬(tape.trainable = [] ∨ tape.diffMethods.all (fun m => m == "0")))
    (hdm : tape.diffMethods.length = tape.trainable.length)
    (hst : finite_diff_stencil n order form = .ok st) :
    finite_diff tape none h order n form =
      .ok (fdGradientTapes tape none (fdStencilSplit st).1 (fdStencilSplit st).2.2 h,
        fdProcess tape.outputDim h n.toNat (fdStencilSplit st).1 (fdStencilSplit st).2.1
          (fdShapes tape none (fdStencilSplit st).2.2 h)) ∧
      (fdShapes tape none (fdStencilSplit st).2.2 h).length = tape.trainable.length ∧
      ∀ results : List (List ℚ),
        fdProcess tape.outputDim h n.toNat (fdStencilSplit st).1 (fdStencilSplit st).2.1
            (fdShapes tape none (fdStencilSplit st).2.2 h) results =
          transposeM tape.outputDim
            ((List.range (fdShapes tape none (fdStencilSplit st).2.2 h).length).map
              (fdSpecGrad tape.outputDim (h ^ n.toNat) (fdStencilSplit st).1
                (fdStencilSplit st).2.1 results
                (fdShapes tape none (fdStencilSplit st).2.2 h)
                (if (fdStencilSplit st).1.isSome then 1 else 0))) ∧
        (fdProcess tape.outputDim h n.toNat (fdStencilSplit st).1 (fdStencilSplit st).2.1
            (fdShapes tape none (fdStencilSplit st).2.2 h) results).length =
          tape.outputDim ∧
        ∀ row ∈ fdProcess tape.outputDim h n.toNat (fdStencilSplit st).1
            (fdStencilSplit st).2.1 (fdShapes tape none (fdStencilSplit st).2.2 h) results,
          row.length = tape.trainable.length := by
  have hshapes : (fdShapes tape none (fdStencilSplit st).2.2 h).length =
      tape.trainable.length := by
    simp [fdShapes, chooseParams, hdm]
  refine ⟨?_, hshapes, ?_⟩
  · rw [finite_diff, if_neg hnz, hst]
  · intro results
    refine ⟨?_, ?_, ?_⟩
    · rw [fdProcess, fdProcessGo_eq_spec]
    · rw [fdProcess, length_transposeM]
    · intro row hrow
      have := mem_transposeM_length _ _ row hrow
      rw [this, length_fdProcessGo, hshapes]

/-- Witness for **C2** on `wTape` with `(h, order, n, form) = (1, 1, 1,
"forward")`, whose stencil is `[(-1, 0), (1, 1)]`. -/
theorem finite_diff_post_witness :
    finite_diff wTape none 1 1 1 "forward" =
      .ok (fdGradientTapes wTape none (fdStencilSplit [(-1, 0), (1, 1)]).1
          (fdStencilSplit [(-1, 0), (1, 1)]).2.2 1,
        fdProcess wTape.outputDim 1 (Int.toNat 1) (fdStencilSplit [(-1, 0), (1, 1)]).1
          (fdStencilSplit [(-1, 0), (1, 1)]).2.1
          (fdShapes wTape none (fdStencilSplit [(-1, 0), (1, 1)]).2.2 1)) ∧
      (fdShapes wTape none (fdStencilSplit [(-1, 0), (1, 1)]).2.2 1).length =
        wTape.trainable.length ∧
      ∀ results : List (List ℚ),
        fdProcess wTape.outputDim 1 (Int.toNat 1) (fdStencilSplit [(-1, 0), (1, 1)]).1
            (fdStencilSplit [(-1, 0), (1, 1)]).2.1
            (fdShapes wTape none (fdStencilSplit [(-1, 0), (1, 1)]).2.2 1) results =
          transposeM wTape.outputDim
            ((List.range (fdShapes wTape none (fdStencilSplit [(-1, 0), (1, 1)]).2.2
                1).length).map
              (fdSpecGrad wTape.outputDim (1 ^ Int.toNat 1)
                (fdStencilSplit [(-1, 0), (1, 1)]).1
                (fdStencilSplit [(-1, 0), (1, 1)]).2.1 results
                (fdShapes wTape none (fdStencilSplit [(-1, 0), (1, 1)]).2.2 1)
                (if (fdStencilSplit [(-1, 0), (1, 1)]).1.isSome then 1 else 0))) ∧
        (fdProcess wTape.outputDim 1 (Int.toNat 1) (fdStencilSplit [(-1, 0), (1, 1)]).1
            (fdStencilSplit [(-1, 0), (1, 1)]).2.1
            (fdShapes wTape none (fdStencilSplit [(-1, 0), (1, 1)]).2.2 1)
            results).length = wTape.outputDim ∧
        ∀ row ∈ fdProcess wTape.outputDim 1 (Int.toNat 1)
            (fdStencilSplit [(-1, 0), (1, 1)]).1 (fdStencilSplit [(-1, 0), (1, 1)]).2.1
            (fdShapes wTape none (fdStencilSplit [(-1, 0), (1, 1)]).2.2 1) results,
          row.length = wTape.trainable.length :=
  finite_diff_post wTape 1 1 1 "forward" [(-1, 0), (1, 1)] (by decide) (by decide)
    (by decide!)

/-- **C7**: a tape with no trainable parameters, or with every trainable
parameter classified `"0"` (non-differentiable), makes `finite_diff` return —
without error, for every configuration, before any stencil generation — the
empty batch and a post-processing function yielding the all-zero matrix of
shape (output_dim, num_trainable_params). -/
theorem finite_diff_degenerate (tape : QTape) (argnum : Option (List ℕ)) (h : ℚ)
    (order n : ℤ) (form : String)
    (hdeg : tape.trainable = [] ∨ tape.diffMethods.all (fun m => m == "0")) :
    finite_diff tape argnum h order n form =
      .ok ([], fun _ => zeroMat tape.outputDim tape.trainable.length) ∧
      (zeroMat tape.outputDim tape.trainable.length).length = tape.outputDim ∧
      ∀ row ∈ zeroMat tape.outputDim tape.trainable.length,
        row.length = tape.trainable.length ∧ ∀ x ∈ row, x = 0 := by
  refine ⟨by rw [finite_diff, if_pos hdeg], by simp [zeroMat], ?_⟩
  intro row hrow
  have hz : row = zeroVec tape.trainable.length := List.eq_of_mem_replicate hrow
  subst hz
  exact ⟨by simp [zeroVec], fun x hx => List.eq_of_mem_replicate hx⟩

/-- A tape with no trainable parameters. -/
def wTapeEmpty : QTape :=
  { params := [3], trainable := [], diffMethods := [], outputDim := 2, ops := ["RZ"] }

/-- Witness for **C7** on `wTapeEmpty` (even with an invalid form string,
since the degenerate early return precedes stencil generation). -/
theorem finite_diff_degenerate_witness :
    finite_diff wTapeEmpty none 1 1 1 "bogus" =
      .ok ([], fun _ => zeroMat wTapeEmpty.outputDim wTapeEmpty.trainable.length) ∧
      (zeroMat wTapeEmpty.outputDim wTapeEmpty.trainable.length).length =
        wTapeEmpty.outputDim ∧
      ∀ row ∈ zeroMat wTapeEmpty.outputDim wTapeEmpty.trainable.length,
        row.length = wTapeEmpty.trainable.length ∧ ∀ x ∈ row, x = 0 :=
  finite_diff_degenerate wTapeEmpty none 1 1 1 "bogus" (Or.inl rfl)

/-! ### The UnwrapTape context manager (claim C10)

Source: `pennylane/interfaces/batch/unwrap.py`. -/

/-- Modelled from the spec: a tape as seen by `UnwrapTape` — a full parameter
list (of an arbitrary wrapped-value type) and trainability metadata. -/
structure UTape (α : Type) where
  params : List α
  trainable : List ℕ

/-- The `UnwrapTape` context manager's constructor state: the managed tape
and the externally supplied `unwrap_fn` / `trainable_fn`. -/
structure UnwrapTape (α : Type) where
  tape : UTape α
  unwrap_fn : List α → List α
  trainable_fn : UTape α → List ℕ × List α

/-- `UnwrapTape.__enter__`: store `trainable_fn`'s trainable indices on the
tape, capture `_original_params`, and replace the full parameter list
(`set_parameters(..., trainable_only=False)`, modelled from the spec as full
replacement) by its unwrapped form.  Returns the modified tape together with
the captured `_original_params`. -/
def UnwrapTape.enter {α : Type} (u : UnwrapTape α) : UTape α × List α :=
  let tf := u.trainable_fn u.tape
  ({ params := u.unwrap_fn tf.2, trainable := tf.1 }, tf.2)

/-- `UnwrapTape.__exit__`: restore the full parameter list to the captured
`_original_params`.  Python runs the same single statement whether the block
exits normally or with an exception, so the exceptional path is this same
function. -/
def UnwrapTape.exitRestore {α : Type} (t : UTape α) (originalParams : List α) :
    UTape α :=
  { t with params := originalParams }

/-- **C10**: for every tape, `unwrap_fn`, `trainable_fn`, and any tape state
`t'` reached inside the context (normal or exceptional exit — `__exit__` is
one unconditional statement), exiting restores the tape's full parameter list
to exactly the original parameter values captured at entry
(`_original_params`), and touches nothing else. -/
theorem unwrapTape_restores {α : Type} (u : UnwrapTape α) (t' : UTape α) :
    (UnwrapTape.exitRestore t' (UnwrapTape.enter u).2).params =
        (UnwrapTape.enter u).2 ∧
      (UnwrapTape.exitRestore t' (UnwrapTape.enter u).2).trainable = t'.trainable :=
  ⟨rfl, rfl⟩

/-! ### The batched VJP combinator (claims C3, C8)

Source: `pennylane/interfaces/batch/unwrap.py`, `batch_vjp`.  The source
builds `reshape_info`, `gradient_tapes` and `processing_fns` in one loop over
`(tape, parameter)` pairs; the three lists are defined here by separate
traversals of the same pairs, which yields the same lists (`gradient_fn` is
pure in this embedding). -/

section BatchVjp

variable {TapeT GTape Res VJP : Type}

/-- `reshape_info`: one entry per (tape, trainable-parameter) pair, in tape
order then parameter order, recording how many gradient tapes that pair
produced. -/
def bvReshapeInfo (tapes : List TapeT) (nTrainable : TapeT → ℕ)
    (gradient_fn : TapeT → ℕ → List GTape × (List Res → List ℚ)) : List ℕ :=
  tapes.flatMap (fun t =>
    (List.range (nTrainable t)).map (fun i => (gradient_fn t i).1.length))

/-- `gradient_tapes`: the flat concatenation of every pair's gradient-tape
batch, in tape order then parameter order. -/
def bvGradientTapes (tapes : List TapeT) (nTrainable : TapeT → ℕ)
    (gradient_fn : TapeT → ℕ → List GTape × (List Res → List ℚ)) : List GTape :=
  tapes.flatMap (fun t =>
    (List.range (nTrainable t)).flatMap (fun i => (gradient_fn t i).1))

/-- Row-major reshape of a flat vector into rows of width `w`
(`qml.math.reshape(jac, [-1, num_params])`). -/
def reshapeRowsAux (w : ℕ) : ℕ → List ℚ → List (List ℚ)
  | 0, _ => []
  | _, [] => []
  | fuel + 1, x :: xs => ((x :: xs).take w) :: reshapeRowsAux w fuel (xs.drop (w - 1))

/-- Row-major reshape, at fuel `l.length` (each step consumes at least one
element for the widths `w ≥ 1` the source uses). -/
def reshapeRows (w : ℕ) (l : List ℚ) : List (List ℚ) :=
  reshapeRowsAux w l.length l

/-- `qml.math.transpose` on a stacked rectangular list of rows. -/
def transposeRows (rows : List (List ℚ)) : List (List ℚ) :=
  transposeM ((rows.headD []).length) rows

/-- The inner loop `for fn, res_len in zip(processing_fns[t], reshape_info)`:
slice `res_len` results at the running cursor, apply `fn`, collect the
per-parameter columns, and return the advanced cursor.  Note the zip is with
the *full* `reshape_info`, exactly as in the source. -/
def bvConsume (results : List Res) :
    List ((List Res → List ℚ) × ℕ) → ℕ → List (List ℚ) × ℕ
  | [], start => ([], start)
  | fnlen :: rest, start =>
    let col := fnlen.1 ((results.drop start).take fnlen.2)
    let out := bvConsume results rest (start + fnlen.2)
    (col :: out.1, out.2)

/-- The outer loop of `batch_vjp` over `zip(range(len(tapes)), dy)`: each
entry carries its tape's `num_params`, its processing functions, and its
cotangent row.  A zero-parameter tape contributes `None` and leaves the
cursor untouched; otherwise the consumed columns are stacked, transposed,
reshaped to `(-1, num_params)` and contracted by `vjp_fn` (which appends one
entry, per the spec's contract for the reducer). -/
def bvLoop (results : List Res) (reshape_info : List ℕ)
    (vjp_fn : List ℚ → List (List ℚ) → VJP) :
    List (ℕ × List (List Res → List ℚ) × List ℚ) → ℕ → List (Option VJP)
  | [], _ => []
  | entry :: rest, start =>
    if entry.1 = 0 then
      none :: bvLoop results reshape_info vjp_fn rest start
    else
      let c := bvConsume results (entry.2.1.zip reshape_info) start
      let jac := reshapeRows entry.1 (transposeRows c.1).flatten
      some (vjp_fn entry.2.2 jac) :: bvLoop results reshape_info vjp_fn rest c.2

/-- `batch_vjp(dy, tapes, execute_fn, gradient_fn, vjp_fn)` from the source:
expand every tape's every trainable parameter through `gradient_fn`, execute
the flat batch once, then slice the results back per tape. -/
def batch_vjp (dy : List (List ℚ)) (tapes : List TapeT) (nTrainable : TapeT → ℕ)
    (gradient_fn : TapeT → ℕ → List GTape × (List Res → List ℚ))
    (execute_fn : List GTape → List Res)
    (vjp_fn : List ℚ → List (List ℚ) → VJP) : List (Option VJP) :=
  bvLoop (execute_fn (bvGradientTapes tapes nTrainable gradient_fn))
    (bvReshapeInfo tapes nTrainable gradient_fn) vjp_fn
    ((tapes.zip dy).map (fun td =>
      (nTrainable td.1,
        (List.range (nTrainable td.1)).map (fun i => (gradient_fn td.1 i).2),
        td.2)))
    0

theorem length_bvLoop (results : List Res) (reshape_info : List ℕ)
    (vjp_fn : List ℚ → List (List ℚ) → VJP) :
    ∀ (l : List (ℕ × List (List Res → List ℚ) × List ℚ)) (start : ℕ),
      (bvLoop results reshape_info vjp_fn l start).length = l.length := by
  intro l
  induction l with
  | nil => intro start; rfl
  | cons e rest ih =>
    intro start
    simp only [bvLoop]
    by_cases he : e.1 = 0
    · rw [if_pos he]
      simp [ih]
    · rw [if_neg he]
      simp [ih]

theorem bvLoop_none (results : List Res) (reshape_info : List ℕ)
    (vjp_fn : List ℚ → List (List ℚ) → VJP) :
    ∀ (l : List (ℕ × List (List Res → List ℚ) × List ℚ)) (start t : ℕ),
      t < l.length → (l.getD t (0, [], [])).1 = 0 →
      (bvLoop results reshape_info vjp_fn l start).getD t none = none := by
  intro l
  induction l with
  | nil => intro start t ht; exact absurd ht (by simp)
  | cons e rest ih =>
    intro start t ht h0
    cases t with
    | zero =>
      have he : e.1 = 0 := by simpa using h0
      simp only [bvLoop]
      rw [if_pos he]
      rfl
    | succ t =>
      have ht' : t < rest.length := by simpa using ht
      have h0' : (rest.getD t (0, [], [])).1 = 0 := by simpa using h0
      simp only [bvLoop]
      by_cases he : e.1 = 0
      · rw [if_pos he]
        simpa using ih start t ht' h0'
      · rw [if_neg he]
        simpa using ih _ t ht' h0'
end BatchVjp

section BatchVjpClaims

variable {TapeT GTape Res VJP : Type}

theorem length_bvGradientTapes (tapes : List TapeT) (nTrainable : TapeT → ℕ)
    (gradient_fn : TapeT → ℕ → List GTape × (List Res → List ℚ)) :
    (bvGradientTapes tapes nTrainable gradient_fn).length =
      (tapes.map (fun t =>
        ((List.range (nTrainable t)).map
          (fun i => (gradient_fn t i).1.length)).sum)).sum := by
  simp only [bvGradientTapes, List.flatMap, List.length_flatten, List.map_map]
  congr 1
  apply List.map_congr_left
  intro t _
  simp only [Function.comp_apply, List.length_flatten, List.map_map]
  rfl

/-- **C8**: `batch_vjp` returns one output entry per input program, in
positional correspondence with the cotangent sequence; every program with
zero trainable parameters yields the sentinel `none` at its position; and the
flat batch handed to the single `execute_fn` invocation has exactly as many
tapes as the sum, over all (program, parameter) pairs, of the number of
gradient tapes produced for that pair. -/
theorem batch_vjp_positional (dy : List (List ℚ)) (tapes : List TapeT)
    (nTrainable : TapeT → ℕ)
    (gradient_fn : TapeT → ℕ → List GTape × (List Res → List ℚ))
    (execute_fn : List GTape → List Res)
    (vjp_fn : List ℚ → List (List ℚ) → VJP)
    (hlen : dy.length = tapes.length) :
    (batch_vjp dy tapes nTrainable gradient_fn execute_fn vjp_fn).length =
        tapes.length ∧
      (∀ t, ∀ ht : t < tapes.length, nTrainable (tapes.get ⟨t, ht⟩) = 0 →
        (batch_vjp dy tapes nTrainable gradient_fn execute_fn vjp_fn).getD t none =
          none) ∧
      (bvGradientTapes tapes nTrainable gradient_fn).length =
        (tapes.map (fun t =>
          ((List.range (nTrainable t)).map
            (fun i => (gradient_fn t i).1.length)).sum)).sum := by
  refine ⟨?_, ?_, length_bvGradientTapes tapes nTrainable gradient_fn⟩
  · rw [batch_vjp, length_bvLoop]
    simp [hlen]
  · intro t ht h0
    rw [batch_vjp]
    have hzlen : t < (((tapes.zip dy).map (fun td =>
        ((nTrainable td.1,
          (List.range (nTrainable td.1)).map (fun i => (gradient_fn td.1 i).2),
          td.2) : ℕ × List (List Res → List ℚ) × List ℚ)))).length := by
      simp [hlen, ht]
    apply bvLoop_none _ _ _ _ _ _ hzlen
    rw [List.getD_eq_getElem?_getD, List.getElem?_eq_getElem hzlen]
    simp only [List.getElem_map, List.getElem_zip, Option.getD_some]
    exact h0

end BatchVjpClaims

/-- The per-(tape, parameter) gradient expansion used by the C3/C8 scenarios:
tape 0's single parameter produces two gradient tapes `[100, 101]`, any other
tape's parameter produces three, `[200, 201, 202]`; each post-processing
function is the identity on its chunk (cast to ℚ), so the chunk a function
received is visible in the output. -/
def bvCexGradFn : ℕ → ℕ → List ℕ × (List ℕ → List ℚ) := fun t _ =>
  if t = 0 then ([100, 101], fun res => res.map (fun x => (x : ℚ)))
  else ([200, 201, 202], fun res => res.map (fun x => (x : ℚ)))

/-- Witness for **C8**: two tapes, the first with zero trainable parameters
(output `none` at position 0), the second with one parameter producing three
gradient tapes; the executed batch length equals the recorded total `3`. -/
theorem batch_vjp_positional_witness :
    (batch_vjp [[1], [1]] [0, 1] (fun t => t) bvCexGradFn (fun g => g)
        (fun _ jac => jac)).length = [0, 1].length ∧
      (∀ t, ∀ ht : t < [0, 1].length, (fun t => t) ([0, 1].get ⟨t, ht⟩) = 0 →
        (batch_vjp [[1], [1]] [0, 1] (fun t => t) bvCexGradFn (fun g => g)
          (fun _ jac => jac)).getD t none = none) ∧
      (bvGradientTapes [0, 1] (fun t => t) bvCexGradFn).length =
        ([0, 1].map (fun t =>
          ((List.range ((fun t => t) t)).map
            (fun i => (bvCexGradFn t i).1.length)).sum)).sum :=
  batch_vjp_positional [[1], [1]] [0, 1] (fun t => t) bvCexGradFn (fun g => g)
    (fun _ jac => jac) rfl

/-- **C3** fails on the code: with two tapes of one trainable parameter each,
`batch_vjp` records `reshape_info = [2, 3]` (tape 0's pair consumed 2 batch
entries, tape 1's pair 3), but the consumption loop zips each tape's
processing functions against the *whole* `reshape_info` from index 0
(`zip(processing_fns[t], reshape_info)`), so tape 1's function is applied to
`results[2:4]` — a chunk of length 2, the length recorded for tape *0*'s pair
— instead of its own recorded length 3 (`results[2:5]`).  The identity
post-processing functions expose this: the second output is
`[[200], [201]]`, with result `202` never consumed. -/
theorem batch_vjp_chunk_bug :
    bvReshapeInfo [0, 1] (fun _ => 1) bvCexGradFn = [2, 3] ∧
      batch_vjp [[1], [1]] [0, 1] (fun _ => 1) bvCexGradFn (fun g => g)
        (fun _ jac => jac) =
        [some [[100], [101]], some [[200], [201]]] :=
  ⟨by decide!, by decide!⟩

/-! ### Uniqueness of the Vandermonde solution

`solveVand_exact` shows `solveVand` *solves* the system; `solveVand_unique`
shows it is the *only* solution (the Vandermonde matrix on distinct nodes is
nonsingular), so it coincides with whatever `np.linalg.solve` returns on the
valid inputs (where `n < len(shifts)`, as established by
`finite_diff_stencil_raw_ok_shape`). -/

theorem vsum_zip (c s : List ℚ) (hlen : c.length = s.length) (k : ℕ) :
    vsum (c.zip s) k = ∑ j : Fin s.length, c.getD (j : ℕ) 0 * s.get j ^ k := by
  have hlist : (c.zip s).map (fun p => p.1 * p.2 ^ k) =
      List.ofFn (fun j : Fin s.length => c.getD (j : ℕ) 0 * s.get j ^ k) := by
    apply List.ext_getElem
    · simp [hlen]
    · intro i h1 h2
      have hi : i < s.length := by simpa using h2
      have hic : i < c.length := by omega
      simp [List.getElem_zip, List.getElem_ofFn, List.getD_eq_getElem?_getD,
        List.getElem?_eq_getElem hic, List.get_eq_getElem]
  rw [vsum, hlist, List.sum_ofFn]

theorem solveVand_unique (s : List ℚ) (hs : s.Nodup) (n : ℕ) (hn : n < s.length)
    (c : List ℚ) (hclen : c.length = s.length)
    (hc : ∀ k, k < s.length →
      vsum (c.zip s) k = if k = n then (n.factorial : ℚ) else 0) :
    c = solveVand s n := by
  have hv : Function.Injective (fun j : Fin s.length => s.get j) :=
    List.nodup_iff_injective_get.1 hs
  set N := s.length with hN
  set v : Fin N → ℚ := fun j => s.get j with hvdef
  set A : Matrix (Fin N) (Fin N) ℚ := (Matrix.vandermonde v).transpose with hA
  have hdet : A.det ≠ 0 := by
    rw [hA, Matrix.det_transpose, Matrix.det_vandermonde]
    apply Finset.prod_ne_zero_iff.2
    intro i _
    apply Finset.prod_ne_zero_iff.2
    intro j hj
    have hij : i < j := Finset.mem_Ioi.1 hj
    exact sub_ne_zero.2 (fun e => absurd (hv e) (Fin.ne_of_lt hij).symm)
  have hinj : Function.Injective A.mulVec :=
    Matrix.mulVec_injective_iff_isUnit.2
      ((Matrix.isUnit_iff_isUnit_det A).2 (isUnit_iff_ne_zero.2 hdet))
  set x : Fin N → ℚ := fun j => c.getD (j : ℕ) 0 with hx
  set y : Fin N → ℚ := fun j => (solveVand s n).getD (j : ℕ) 0 with hy
  have hsl : (solveVand s n).length = s.length := length_solveVand s n
  have hmul : ∀ z : Fin N → ℚ, ∀ k : Fin N,
      A.mulVec z k = ∑ j : Fin N, z j * v j ^ (k : ℕ) := by
    intro z k
    simp only [Matrix.mulVec, Matrix.dotProduct, hA, Matrix.transpose_apply,
      Matrix.vandermonde, Matrix.of_apply]
    exact Finset.sum_congr rfl (fun j _ => mul_comm _ _)
  have hxy : A.mulVec x = A.mulVec y := by
    funext k
    rw [hmul x k, hmul y k]
    have h1 : (∑ j : Fin N, x j * v j ^ (k : ℕ)) = vsum (c.zip s) (k : ℕ) :=
      (vsum_zip c s hclen (k : ℕ)).symm
    have h2 : (∑ j : Fin N, y j * v j ^ (k : ℕ)) = vsum (rawStencil s n) (k : ℕ) := by
      rw [rawStencil]
      exact (vsum_zip (solveVand s n) s hsl (k : ℕ)).symm
    rw [h1, h2, hc (k : ℕ) k.isLt, solveVand_exact s hs n hn (k : ℕ) k.isLt]
  have hfun : x = y := hinj hxy
  apply List.ext_getElem (by rw [hclen, hsl])
  intro i h1 h2
  have hiN : i < N := by omega
  have hgd := congrFun hfun ⟨i, hiN⟩
  rw [hx, hy] at hgd
  simp only at hgd
  rw [List.getD_eq_getElem?_getD, List.getElem?_eq_getElem h1] at hgd
  rw [List.getD_eq_getElem?_getD, List.getElem?_eq_getElem h2] at hgd
  simpa using hgd
